import Mathlib

/-!
Verification of the BlockchainService core (`app/service/BlockchainService.js`).

Shallow embedding: JavaScript records become structures, underscore list
helpers become `List` operations, and the asynchronous callback pipelines
(which the service runs strictly sequentially through its serial queues)
become pure functions.  JavaScript numbers appearing as block heights are
`Nat`; signed arithmetic (branch sizes, member counts) is `Int`; monetary
arithmetic (`c * M / N`) is `ℚ`.  Fallible paths return `Except String` or
`Option`, matching the thrown string errors of the source.
-/

namespace Duniter

/-- A fork-tree node: one tentative block layered over its parent.  The three
fields are exactly the ones stored by `forkAndAddCore` (lines 376-380 of
`BlockchainService.js`). -/
structure Core where
  forkPointNumber : Nat
  forkPointHash : String
  forkPointPreviousHash : String
deriving DecidableEq, Repr

/-- A block of the confirmed main blockchain (only the fields the fork logic
reads: `number` and `hash`). -/
structure MainBlock where
  number : Nat
  hash : String
deriving DecidableEq, Repr

/-- `_.max(cores, core => core.forkPointNumber).forkPointNumber` (line 98).
For a non-empty list this is the greatest fork-point number; heights are
non-negative so a zero seed is harmless. -/
def maxForkPointNumber (cores : List Core) : Nat :=
  (cores.map Core.forkPointNumber).foldl max 0

/-- The comparison used by `_.sortBy(highestCores, core => core.forkPointHash)`
(line 100): ascending lexicographic order on the hash strings. -/
def hashLe (a b : Core) : Prop := a.forkPointHash ≤ b.forkPointHash

instance : DecidableRel hashLe := fun a b =>
  inferInstanceAs (Decidable (a.forkPointHash ≤ b.forkPointHash))

instance : IsTotal Core hashLe := ⟨fun a b => le_total a.forkPointHash b.forkPointHash⟩

instance : IsTrans Core hashLe := ⟨fun _ _ _ h h2 => le_trans h h2⟩

/-- `getMainFork` (lines 97-102): keep the cores at the maximal fork-point
number, sort them ascending by `forkPointHash` (underscore's `sortBy` is a
stable ascending sort) and return the last one. -/
def getMainFork (cores : List Core) : Option Core :=
  let maxNumber := maxForkPointNumber cores
  let highestCores := cores.filter (fun core => core.forkPointNumber == maxNumber)
  (List.insertionSort hashLe highestCores).getLast?

theorem le_foldl_max (l : List Nat) : ∀ a, a ≤ l.foldl max a := by
  induction l with
  | nil => exact fun a => le_refl a
  | cons c t ih => exact fun a => le_trans (le_max_left a c) (ih (max a c))

theorem foldl_max_le {l : List Nat} {x : Nat} (hx : x ∈ l) : ∀ a, x ≤ l.foldl max a := by
  induction l with
  | nil => cases hx
  | cons b t ih =>
    intro a
    rcases List.mem_cons.mp hx with h | h
    · subst h
      exact le_trans (le_max_right a x) (le_foldl_max t (max a x))
    · exact ih h (max a b)

theorem foldl_max_mem (l : List Nat) : ∀ a, l.foldl max a = a ∨ l.foldl max a ∈ l := by
  induction l with
  | nil => exact fun a => Or.inl rfl
  | cons b t ih =>
    intro a
    rcases ih (max a b) with h | h
    · by_cases hab : a ≤ b
      · right
        rw [List.foldl_cons, h, max_eq_right hab]
        exact List.mem_cons_self b t
      · left
        rw [List.foldl_cons, h, max_eq_left (le_of_not_le hab)]
    · right
      exact List.mem_cons_of_mem b h

/-- In a `hashLe`-sorted list every element's hash is at most the last
element's hash. -/
theorem sorted_hashLe_getLast :
    ∀ (l : List Core), l.Sorted hashLe → ∀ (hne : l ≠ []) (x : Core), x ∈ l →
      x.forkPointHash ≤ (l.getLast hne).forkPointHash := by
  intro l
  induction l with
  | nil => intro _ hne; exact absurd rfl hne
  | cons a t ih =>
    intro hs hne x hx
    cases t with
    | nil =>
      rcases List.mem_singleton.mp hx with rfl
      exact le_refl _
    | cons b u =>
      rw [List.getLast_cons (List.cons_ne_nil b u)]
      rcases List.mem_cons.mp hx with rfl | hmem
      · have hrel := List.rel_of_sorted_cons hs
        exact hrel _ (List.getLast_mem (List.cons_ne_nil b u))
      · exact ih (List.Sorted.of_cons hs) (List.cons_ne_nil b u) x hmem

/-- C1: for every non-empty list of cores, `getMainFork` returns a core of the
list whose `forkPointNumber` is the maximum over the list, and whose
`forkPointHash` is lexicographically greatest among the cores at that
maximum height. -/
theorem spec_c1 (cores : List Core) (hne : cores ≠ []) :
    ∃ m, getMainFork cores = some m ∧ m ∈ cores ∧
      (∀ c ∈ cores, c.forkPointNumber ≤ m.forkPointNumber) ∧
      (∀ c ∈ cores, c.forkPointNumber = m.forkPointNumber →
        c.forkPointHash ≤ m.forkPointHash) := by
  classical
  set M := maxForkPointNumber cores with hM
  -- every core's number is at most M
  have hle : ∀ c ∈ cores, c.forkPointNumber ≤ M := by
    intro c hc
    exact foldl_max_le (List.mem_map_of_mem Core.forkPointNumber hc) 0
  -- M is attained
  have hattained : ∃ c ∈ cores, c.forkPointNumber = M := by
    rcases foldl_max_mem (cores.map Core.forkPointNumber) 0 with h0 | hmem
    · cases cores with
      | nil => exact absurd rfl hne
      | cons a t =>
        refine ⟨a, List.mem_cons_self a t, ?_⟩
        have := hle a (List.mem_cons_self a t)
        have hM0 : M = 0 := h0
        omega
    · rcases List.mem_map.mp hmem with ⟨c, hc, hcM⟩
      exact ⟨c, hc, hcM⟩
  set highestCores := cores.filter (fun core => core.forkPointNumber == M) with hHigh
  have hhne : highestCores ≠ [] := by
    rcases hattained with ⟨c, hc, hcM⟩
    intro hemp
    have : c ∈ highestCores := by
      rw [hHigh, List.mem_filter]
      exact ⟨hc, by simpa using hcM⟩
    rw [hemp] at this
    cases this
  set sortedCores := List.insertionSort hashLe highestCores with hSort
  have hsne : sortedCores ≠ [] := by
    intro hemp
    have hperm := List.perm_insertionSort hashLe highestCores
    rw [hSort] at hemp
    rw [hemp] at hperm
    exact hhne (hperm.symm.eq_nil)
  refine ⟨sortedCores.getLast hsne, ?_, ?_, ?_, ?_⟩
  · show (List.insertionSort hashLe (cores.filter
      (fun core => core.forkPointNumber == maxForkPointNumber cores))).getLast? = _
    rw [← hM, ← hHigh, ← hSort]
    exact List.getLast?_eq_getLast sortedCores hsne
  · have hmem : sortedCores.getLast hsne ∈ sortedCores := List.getLast_mem hsne
    have : sortedCores.getLast hsne ∈ highestCores :=
      (List.perm_insertionSort hashLe highestCores).subset (hSort ▸ hmem)
    exact (List.mem_filter.mp this).1
  · intro c hc
    have hmem : sortedCores.getLast hsne ∈ sortedCores := List.getLast_mem hsne
    have hmemH : sortedCores.getLast hsne ∈ highestCores :=
      (List.perm_insertionSort hashLe highestCores).subset (hSort ▸ hmem)
    have hnum : (sortedCores.getLast hsne).forkPointNumber = M := by
      have := (List.mem_filter.mp hmemH).2
      simpa using this
    rw [hnum]
    exact hle c hc
  · intro c hc hcnum
    have hmem : sortedCores.getLast hsne ∈ sortedCores := List.getLast_mem hsne
    have hmemH : sortedCores.getLast hsne ∈ highestCores :=
      (List.perm_insertionSort hashLe highestCores).subset (hSort ▸ hmem)
    have hnum : (sortedCores.getLast hsne).forkPointNumber = M := by
      have := (List.mem_filter.mp hmemH).2
      simpa using this
    have hcM : c.forkPointNumber = M := by rw [hcnum, hnum]
    have hcH : c ∈ highestCores := by
      rw [hHigh, List.mem_filter]
      exact ⟨hc, by simpa using hcM⟩
    have hcS : c ∈ sortedCores := by
      rw [hSort, List.mem_insertionSort]
      exact hcH
    exact sorted_hashLe_getLast sortedCores
      (hSort ▸ List.sorted_insertionSort hashLe highestCores) hsne c hcS

/-- Witness for C1: the spec's tie-break example, two cores at the same
highest height with hashes `"0ABC"` and `"0FED"`. -/
theorem spec_c1_witness :
    ∃ m, getMainFork [⟨5, "0ABC", "p"⟩, ⟨5, "0FED", "p"⟩] = some m ∧
      m ∈ [⟨5, "0ABC", "p"⟩, ⟨5, "0FED", "p"⟩] ∧
      (∀ c ∈ [Core.mk 5 "0ABC" "p", Core.mk 5 "0FED" "p"],
        c.forkPointNumber ≤ m.forkPointNumber) ∧
      (∀ c ∈ [Core.mk 5 "0ABC" "p", Core.mk 5 "0FED" "p"],
        c.forkPointNumber = m.forkPointNumber →
          c.forkPointHash ≤ m.forkPointHash) :=
  spec_c1 [⟨5, "0ABC", "p"⟩, ⟨5, "0FED", "p"⟩] (List.cons_ne_nil _ _)

/-! ### Block submission: locating the parent (C4) -/

/-- A block as submitted to `submitBlock` (the fields read before admission). -/
structure SubmittedBlock where
  number : Nat
  hash : String
  previousHash : String
deriving DecidableEq, Repr

/-- `getCore(cores, number, hash)` (lines 170-172):
`_.findWhere(cores, { forkPointNumber: number, forkPointHash: hash })`.
The number is an `Int` because `submitBlock` passes `obj.number - 1`. -/
def getCore (cores : List Core) (number : Int) (hash : String) : Option Core :=
  cores.find? (fun c => (c.forkPointNumber : Int) == number && c.forkPointHash == hash)

/-- The admission step of `submitBlock` for a non-empty set of cores
(lines 197-211): the parent candidate is looked up with
`getCore(cores, obj.number - 1, obj.previousHash)` — only among the cores;
on failure the string `'Previous block not found'` is thrown before any
mutation, on success `forkAndAddCore` registers the new core (lines 375-402).
The result pairs the cores visible afterwards with the error, if any. -/
def submitStep (cores : List Core) (b : SubmittedBlock) : List Core × Option String :=
  match getCore cores ((b.number : Int) - 1) b.previousHash with
  | none => (cores, some "Previous block not found")
  | some _ => (cores ++ [⟨b.number, b.hash, b.previousHash⟩], none)

theorem find?_isSome_iff {p : Core → Bool} {l : List Core} :
    (l.find? p).isSome = true ↔ ∃ c ∈ l, p c = true := by
  constructor
  · intro h
    rcases Option.isSome_iff_exists.mp h with ⟨c, hc⟩
    exact ⟨c, List.mem_of_find?_eq_some hc, List.find?_some hc⟩
  · rintro ⟨c, hc, hp⟩
    rcases List.find?_isSome.mpr ⟨c, hc, hp⟩ with h
    exact h

/-- C4, counterexample to the claim as stated: one core exists, and the
submitted block's `(number - 1, previousHash)` matches the *confirmed tip*
(number 4, hash `"TT"`) — an element of cores ∪ {confirmed-tip} — yet
`submitBlock` does not locate a parent: it fails with
`'Previous block not found'`, because with a non-empty core set the code
searches only `cores` (line 197). -/
theorem spec_c4_counterexample :
    ((⟨4, "TT"⟩ : MainBlock).number : Int) = ((⟨5, "XX", "TT"⟩ : SubmittedBlock).number : Int) - 1 ∧
    (⟨4, "TT"⟩ : MainBlock).hash = (⟨5, "XX", "TT"⟩ : SubmittedBlock).previousHash ∧
    submitStep [⟨5, "AA", "BB"⟩] ⟨5, "XX", "TT"⟩ =
      ([⟨5, "AA", "BB"⟩], some "Previous block not found") := by
  refine ⟨by decide, rfl, ?_⟩
  rfl

/-- C4, amended: when at least one core exists, `submitBlock` locates a parent
iff some element of `cores` (the confirmed tip is not consulted) has number
`B.number − 1` and hash `B.previousHash`; when no such core exists it fails
with `'Previous block not found'` and the set of cores is unchanged (no core
is registered). -/
theorem spec_c4 (cores : List Core) (b : SubmittedBlock) (hne : cores ≠ []) :
    ((∃ c ∈ cores, (c.forkPointNumber : Int) = (b.number : Int) - 1 ∧
        c.forkPointHash = b.previousHash) ↔ (submitStep cores b).2 = none) ∧
    ((submitStep cores b).2 = some "Previous block not found" →
      (submitStep cores b).1 = cores) := by
  clear hne
  constructor
  · constructor
    · rintro ⟨c, hc, hn, hh⟩
      have hp : ((c.forkPointNumber : Int) == (b.number : Int) - 1 &&
          c.forkPointHash == b.previousHash) = true := by
        simp [hn, hh]
      have hsome : (cores.find? (fun c => (c.forkPointNumber : Int) == (b.number : Int) - 1 &&
          c.forkPointHash == b.previousHash)).isSome = true :=
        find?_isSome_iff.mpr ⟨c, hc, hp⟩
      unfold submitStep getCore
      rcases Option.isSome_iff_exists.mp hsome with ⟨c', hc'⟩
      rw [hc']
    · intro h
      unfold submitStep at h
      rcases hfind : getCore cores ((b.number : Int) - 1) b.previousHash with _ | c
      · rw [hfind] at h
        simp at h
      · have hmem := List.mem_of_find?_eq_some hfind
        have hp := List.find?_some hfind
        refine ⟨c, hmem, ?_, ?_⟩
        · have := (Bool.and_eq_true _ _).mp hp |>.1
          exact eq_of_beq this
        · have := (Bool.and_eq_true _ _).mp hp |>.2
          simpa using this
  · intro h
    unfold submitStep at h ⊢
    rcases hfind : getCore cores ((b.number : Int) - 1) b.previousHash with _ | c
    · rfl
    · rw [hfind] at h
      simp at h

/-- Witness for C4 (amended): a concrete non-empty core set where the parent
is found iff it is among the cores, and a mismatching submission leaves the
cores untouched. -/
theorem spec_c4_witness :
    ((∃ c ∈ [Core.mk 5 "AA" "BB"],
        (c.forkPointNumber : Int) = (((⟨6, "CC", "AA"⟩ : SubmittedBlock)).number : Int) - 1 ∧
        c.forkPointHash = (⟨6, "CC", "AA"⟩ : SubmittedBlock).previousHash) ↔
      (submitStep [Core.mk 5 "AA" "BB"] ⟨6, "CC", "AA"⟩).2 = none) ∧
    ((submitStep [Core.mk 5 "AA" "BB"] ⟨6, "CC", "AA"⟩).2 = some "Previous block not found" →
      (submitStep [Core.mk 5 "AA" "BB"] ⟨6, "CC", "AA"⟩).1 = [Core.mk 5 "AA" "BB"]) :=
  spec_c4 [Core.mk 5 "AA" "BB"] ⟨6, "CC", "AA"⟩ (List.cons_ne_nil _ _)

/-! ### Iterated WoT-stability checking (C5) -/

section IteratedChecking

variable {α : Type}

/-- One pass of `iteratedChecking` (lines 507-517): `async.forEachSeries` over
the newcomers, testing each against `passingNewcomers.concat(newcomer)`; a
successful check appends the newcomer to `passingNewcomers`, a failure sets
`hadError`.  `check l = true` models "no error" for the bunch `l`. -/
def onePassGo (check : List α → Bool) (passing : List α) (hadError : Bool) :
    List α → List α × Bool
  | [] => (passing, hadError)
  | n :: rest =>
    if check (passing ++ [n]) then onePassGo check (passing ++ [n]) hadError rest
    else onePassGo check passing true rest

/-- A full checking pass starting from an empty `passingNewcomers`. -/
def onePass (check : List α → Bool) (newcomers : List α) : List α × Bool :=
  onePassGo check [] false newcomers

theorem onePassGo_spec (check : List α → Bool) :
    ∀ (l : List α) (passing : List α) (hadError : Bool),
      ∃ s, (onePassGo check passing hadError l).1 = passing ++ s ∧ s.Sublist l := by
  intro l
  induction l with
  | nil => exact fun passing hadError => ⟨[], by simp [onePassGo]⟩
  | cons n rest ih =>
    intro passing hadError
    by_cases h : check (passing ++ [n]) = true
    · rcases ih (passing ++ [n]) hadError with ⟨s, hs1, hs2⟩
      refine ⟨n :: s, ?_, List.Sublist.cons₂ n hs2⟩
      rw [onePassGo, if_pos h, hs1, List.append_assoc]
      rfl
    · rcases ih passing true with ⟨s, hs1, hs2⟩
      refine ⟨s, ?_, List.Sublist.cons n hs2⟩
      rw [onePassGo, if_neg h]
      exact hs1

theorem onePassGo_no_error (check : List α → Bool) :
    ∀ (l : List α) (passing : List α),
      (onePassGo check passing false l).2 = false →
      (onePassGo check passing false l).1 = passing ++ l := by
  intro l
  induction l with
  | nil => intro passing _; simp [onePassGo]
  | cons n rest ih =>
    intro passing herr
    by_cases h : check (passing ++ [n]) = true
    · rw [onePassGo, if_pos h] at herr ⊢
      rw [ih (passing ++ [n]) herr, List.append_assoc]
      rfl
    · rw [onePassGo, if_neg h] at herr
      exfalso
      -- with hadError = true the flag can never be reset
      have hstuck : ∀ (l' : List α) (p : List α), (onePassGo check p true l').2 = true := by
        intro l'
        induction l' with
        | nil => intro p; rfl
        | cons m r ih2 =>
          intro p
          by_cases hm : check (p ++ [m]) = true
          · rw [onePassGo, if_pos hm]; exact ih2 (p ++ [m])
          · rw [onePassGo, if_neg hm]; exact ih2 p
      rw [hstuck rest passing] at herr
      cases herr

theorem onePassGo_length_lt (check : List α → Bool) :
    ∀ (l : List α) (passing : List α),
      (onePassGo check passing false l).2 = true →
      ((onePassGo check passing false l).1).length < passing.length + l.length := by
  intro l
  induction l with
  | nil => intro passing herr; cases herr
  | cons n rest ih =>
    intro passing herr
    by_cases h : check (passing ++ [n]) = true
    · rw [onePassGo, if_pos h] at herr ⊢
      have := ih (passing ++ [n]) herr
      simp only [List.length_append, List.length_cons, List.length_nil] at this ⊢
      omega
    · rw [onePassGo, if_neg h]
      rcases onePassGo_spec check rest passing true with ⟨s, hs1, hs2⟩
      rw [hs1]
      have := hs2.length_le
      simp only [List.length_append, List.length_cons, List.length_nil]
      omega

/-- `iteratedChecking` (lines 505-532): run a pass; if any newcomer was
rejected, recurse on the newcomers that passed; otherwise return them.
Termination: a pass that records an error strictly shrinks the list. -/
def iteratedChecking (check : List α → Bool) (newcomers : List α) : List α :=
  if h : (onePass check newcomers).2 = true then
    iteratedChecking check (onePass check newcomers).1
  else
    (onePass check newcomers).1
termination_by newcomers.length
decreasing_by
  have := onePassGo_length_lt check newcomers [] h
  simpa [onePass] using this

/-- C5: for every admission-check function and every finite candidate list,
`iteratedChecking` terminates (it is a total function) and returns a
sub-sequence `passing` of the input over which one entire checking pass
produces no rejection (the pass re-accepts every element of `passing`);
when a pass rejects at least one candidate the function recurses on that
pass's survivors (third conjunct). -/
theorem spec_c5 (check : List α → Bool) (newcomers : List α) :
    (iteratedChecking check newcomers).Sublist newcomers ∧
    onePass check (iteratedChecking check newcomers) =
      (iteratedChecking check newcomers, false) ∧
    ((onePass check newcomers).2 = true →
      iteratedChecking check newcomers =
        iteratedChecking check (onePass check newcomers).1) := by
  suffices H : ∀ (n : Nat) (l : List α), l.length < n →
      (iteratedChecking check l).Sublist l ∧
      onePass check (iteratedChecking check l) = (iteratedChecking check l, false) ∧
      ((onePass check l).2 = true →
        iteratedChecking check l = iteratedChecking check (onePass check l).1) by
    exact H (newcomers.length + 1) newcomers (Nat.lt_succ_self _)
  intro n
  induction n with
  | zero => exact fun l hl => absurd hl (Nat.not_lt_zero _)
  | succ n ih =>
    intro l hl
    by_cases h : (onePass check l).2 = true
    · have hstep : iteratedChecking check l =
          iteratedChecking check (onePass check l).1 := by
        rw [iteratedChecking, dif_pos h]
      have hlt : ((onePass check l).1).length < l.length := by
        have := onePassGo_length_lt check l [] h
        simpa [onePass] using this
      have hrec := ih ((onePass check l).1) (by omega)
      refine ⟨?_, ?_, fun _ => hstep⟩
      · rw [hstep]
        rcases onePassGo_spec check l [] false with ⟨s, hs1, hs2⟩
        have hsub : ((onePass check l).1).Sublist l := by
          rw [onePass, hs1]
          simpa using hs2
        exact hrec.1.trans hsub
      · rw [hstep]
        exact hrec.2.1
    · have hfalse : (onePass check l).2 = false := by
        cases hb : (onePass check l).2
        · rfl
        · exact absurd hb h
      have hstep : iteratedChecking check l = (onePass check l).1 := by
        rw [iteratedChecking, dif_neg h]
      have hid : (onePass check l).1 = l := by
        have := onePassGo_no_error check l [] (by simpa [onePass] using hfalse)
        simpa [onePass] using this
      refine ⟨?_, ?_, fun habs => absurd habs h⟩
      · rw [hstep, hid]
      · rw [hstep, hid]
        exact Prod.ext hid hfalse

end IteratedChecking

/-! ### Transaction selection during assembly (C9) -/

section FindTransactions

variable {Tx : Type} [DecidableEq Tx]

/-- The `async.forEachSeries` loop of `findTransactions` (lines 638-662).
`localCheck` models `localValidation.checkBunchOfTransactions` applied to
`passingTxs.concat(extractedTX)`, `globalCheck` models
`globalValidation.checkSingleTransaction`.  A passing transaction is pushed
onto the accepted list; a failing one is removed from the pending pool
(`dal.removeTxByHash`) and iteration continues with the remaining ones.
The state is `(passingTxs, removed-from-pool)`. -/
def findTxGo (localCheck : List Tx → Bool) (globalCheck : Tx → Bool)
    (passing removed : List Tx) : List Tx → List Tx × List Tx
  | [] => (passing, removed)
  | t :: rest =>
    if localCheck (passing ++ [t]) && globalCheck t then
      findTxGo localCheck globalCheck (passing ++ [t]) removed rest
    else
      findTxGo localCheck globalCheck passing (removed ++ [t]) rest

/-- `findTransactions` (lines 629-668) on the pending pool: returns the
transactions accepted for the block and the ones deleted from the pool. -/
def findTransactions (localCheck : List Tx → Bool) (globalCheck : Tx → Bool)
    (pool : List Tx) : List Tx × List Tx :=
  findTxGo localCheck globalCheck [] [] pool

theorem findTxGo_spec (localCheck : List Tx → Bool) (globalCheck : Tx → Bool) :
    ∀ (pool passing removed : List Tx),
      ∃ acc rem,
        findTxGo localCheck globalCheck passing removed pool = (passing ++ acc, removed ++ rem) ∧
        acc.Sublist pool ∧ rem.Sublist pool ∧
        ∀ t : Tx, acc.count t + rem.count t = pool.count t := by
  intro pool
  induction pool with
  | nil =>
    intro passing removed
    exact ⟨[], [], by simp [findTxGo], List.Sublist.refl _, List.Sublist.refl _, by simp⟩
  | cons t rest ih =>
    intro passing removed
    by_cases h : (localCheck (passing ++ [t]) && globalCheck t) = true
    · rcases ih (passing ++ [t]) removed with ⟨acc, rem, h1, h2, h3, h4⟩
      refine ⟨t :: acc, rem, ?_, List.Sublist.cons₂ t h2, List.Sublist.cons t h3, ?_⟩
      · rw [findTxGo, if_pos h, h1, List.append_assoc]
        rfl
      · intro x
        rw [List.count_cons, List.count_cons]
        have := h4 x
        omega
    · rcases ih passing (removed ++ [t]) with ⟨acc, rem, h1, h2, h3, h4⟩
      refine ⟨acc, t :: rem, ?_, List.Sublist.cons t h2, List.Sublist.cons₂ t h3, ?_⟩
      · rw [findTxGo, if_neg h, h1, List.append_assoc]
        rfl
      · intro x
        rw [List.count_cons, List.count_cons]
        have := h4 x
        omega

/-- C9: every pending transaction is either accepted into the block or deleted
from the pending pool (the counts add up: a failing transaction is removed
and processing continues instead of aborting); both lists respect pool
order; and on a duplicate-free pool a deleted transaction never appears in
the assembled block. -/
theorem spec_c9 (localCheck : List Tx → Bool) (globalCheck : Tx → Bool)
    (pool : List Tx) :
    ((findTransactions localCheck globalCheck pool).1).Sublist pool ∧
    ((findTransactions localCheck globalCheck pool).2).Sublist pool ∧
    (∀ t : Tx, (findTransactions localCheck globalCheck pool).1.count t +
      (findTransactions localCheck globalCheck pool).2.count t = pool.count t) ∧
    (pool.Nodup → ∀ t ∈ (findTransactions localCheck globalCheck pool).2,
      t ∉ (findTransactions localCheck globalCheck pool).1) := by
  rcases findTxGo_spec localCheck globalCheck pool [] [] with ⟨acc, rem, h1, h2, h3, h4⟩
  have hfind : findTransactions localCheck globalCheck pool = (acc, rem) := by
    rw [findTransactions, h1]
    simp
  refine ⟨by rw [hfind]; exact h2, by rw [hfind]; exact h3, ?_, ?_⟩
  · intro t
    rw [hfind]
    exact h4 t
  · intro hnd t htrem htacc
    rw [hfind] at htrem htacc
    have hc1 : 1 ≤ acc.count t := List.count_pos_iff.mpr htacc
    have hc2 : 1 ≤ rem.count t := List.count_pos_iff.mpr htrem
    have hcp : pool.count t ≤ 1 := List.nodup_iff_count_le_one.mp hnd t
    have := h4 t
    omega

/-- Witness for C9 at a concrete pool: with a bunch check `sum ≤ 2` and a
global check `t ≠ 3`, the pool `[1, 2, 3]` yields the block transactions
`[1]` and removes `[2, 3]` from the pool; the `Nodup` hypothesis is
discharged concretely. -/
theorem spec_c9_witness :
    ((findTransactions (fun l => decide (l.sum ≤ 2)) (fun t => decide (t ≠ 3))
        [1, 2, 3]).1).Sublist [1, 2, 3] ∧
    ((findTransactions (fun l => decide (l.sum ≤ 2)) (fun t => decide (t ≠ 3))
        [1, 2, 3]).2).Sublist [1, 2, 3] ∧
    (∀ t : Nat, (findTransactions (fun l => decide (l.sum ≤ 2)) (fun t => decide (t ≠ 3))
        [1, 2, 3]).1.count t +
      (findTransactions (fun l => decide (l.sum ≤ 2)) (fun t => decide (t ≠ 3))
        [1, 2, 3]).2.count t = List.count t [1, 2, 3]) ∧
    (∀ t ∈ (findTransactions (fun l => decide (l.sum ≤ 2)) (fun t => decide (t ≠ 3))
        [1, 2, 3]).2,
      t ∉ (findTransactions (fun l => decide (l.sum ≤ 2)) (fun t => decide (t ≠ 3))
        [1, 2, 3]).1) := by
  have h := spec_c9 (fun l : List Nat => decide (l.sum ≤ 2)) (fun t => decide (t ≠ 3)) [1, 2, 3]
  exact ⟨h.1, h.2.1, h.2.2.1, h.2.2.2 (by decide)⟩

end FindTransactions

/-! ### Block assembly: `createBlock` (C6, C7, C10) -/

/-- The protocol constants `createBlock` reads from `conf`. -/
structure Conf where
  c : ℚ
  dt : Int
  ud0 : ℚ
  rootoffset : Int
  currency : String
deriving Repr

/-- An identity record as held in `joinData[...].identity`. -/
structure Identity where
  pubkey : String
  uid : String
  member : Bool
  wasMember : Bool
deriving DecidableEq, Repr

/-- An inline certification (`from`, `to`). -/
structure Cert where
  fromPk : String
  toPk : String
deriving DecidableEq, Repr

/-- One entry of `joinData` / `leaveData`: the resolved identity, the inline
form of its membership, and its vetted certifications. -/
structure JoinEntry where
  identity : Identity
  msInline : String
  certs : List Cert
deriving DecidableEq, Repr

/-- The current (confirmed-tip) block fields read by `createBlock`.
`monetaryMass` is optional because the source guards it with `|| 0`. -/
structure CurrentBlock where
  number : Nat
  hash : String
  issuer : String
  currency : String
  membersCount : Int
  monetaryMass : Option Nat
deriving DecidableEq, Repr

/-- The fields of `lastUDBlock` (and of the root block used as fallback)
read by the dividend computation.  `UDTime = none` models an absent field. -/
structure UDBlock where
  UDTime : Option Int
  dividend : ℚ
deriving DecidableEq, Repr

/-- The candidate block assembled by `createBlock`. -/
structure Blk where
  version : Nat
  currency : String
  number : Nat
  previousHash : String
  previousIssuer : String
  issuer : String
  identities : List String
  joiners : List String
  actives : List String
  leavers : List String
  excluded : List String
  membersCount : Int
  certifications : List Cert
  transactions : List String
  powMin : Nat
  medianTime : Int
  dividend : Option Int
deriving DecidableEq, Repr

/-- Lines 1175-1179: `lastUDTime = lastUDBlock && lastUDBlock.UDTime`; when
that is falsy (absent block, absent field, or the value `0`), fall back to
the root block's `UDTime`.  The result is `none` when the final value is
null/undefined (`lastUDTime != null` fails). -/
def resolveLastUDTime (lastUDBlock rootBlock : Option UDBlock) : Option Int :=
  let l := lastUDBlock.bind UDBlock.UDTime
  if l = none ∨ l = some 0 then rootBlock.bind UDBlock.UDTime else l

/-- Lines 1180-1188: the Universal Dividend.  Set only when a resolved last
UD time exists, a current block exists and `lastUDTime + dt ≤ medianTime`;
its value is `Math.ceil(Math.max(previousUD, c * M / N))` with
`M = current.monetaryMass || 0`, `N = block.membersCount` and
`previousUD = lastUDBlock ? lastUDBlock.dividend : conf.ud0`. -/
def computeDividend (conf : Conf) (current : Option CurrentBlock)
    (lastUDBlock rootBlock : Option UDBlock) (medianTime : Int)
    (membersCount : Int) : Option Int :=
  match resolveLastUDTime lastUDBlock rootBlock, current with
  | some t, some cur =>
    if t + conf.dt ≤ medianTime then
      some ⌈max ((lastUDBlock.map UDBlock.dividend).getD conf.ud0)
            (conf.c * ((cur.monetaryMass.getD 0 : Nat) : ℚ) / (membersCount : ℚ))⌉
    else none
  | _, _ => none

/-- Removes from an association list every entry whose key is listed
(`delete joinData[excluded]`, lines 1075-1083). -/
def deleteKeys (m : List (String × JoinEntry)) (ks : List String) :
    List (String × JoinEntry) :=
  m.filter (fun kv => ¬ ks.contains kv.1)

/-- `createBlock` (lines 1073-1190).  External collaborators that live
outside this file's sources are passed as oracle values: `powMinOracle`
(`globalValidator.getPoWMin`), `medianTimeOracle`
(`globalValidator.getMedianTime`), `nowTime` (`moment.utc().unix()`),
`rootBlock` (`dal.getBlockOrNull(0)`).  The `parameters` string of a root
block is omitted (pure serialization of `conf`).  Steps, in source order:
delete excluded then leaver keys from `updates`/`joinData`/`leaveData`;
build the header; fail on a memberless root block; emit identities for
never-members, joiners for non-members, actives for members, leavers for
member leavers; count members; gather certifications (newcomers first,
then WoT updates); attach transactions; fix `powMin` and `medianTime`
(height 0: `now - rootoffset`); compute the dividend. -/
def createBlock (conf : Conf) (selfPubkey : String) (nowTime : Int)
    (powMinOracle : Nat) (medianTimeOracle : Int)
    (current : Option CurrentBlock)
    (joinData leaveData : List (String × JoinEntry))
    (updates : List (String × List Cert)) (exclusions : List String)
    (lastUDBlock rootBlock : Option UDBlock)
    (transactions : List String) : Except String Blk :=
  let updates1 := updates.filter (fun kv => ¬ exclusions.contains kv.1)
  let joinData1 := deleteKeys joinData exclusions
  let leaveData1 := deleteKeys leaveData exclusions
  let leaverKeys := leaveData1.map Prod.fst
  let updates2 := updates1.filter (fun kv => ¬ leaverKeys.contains kv.1)
  let joinData2 := deleteKeys joinData1 leaverKeys
  let number := match current with
    | some cur => cur.number + 1
    | none => 0
  let joiners := joinData2.map Prod.fst
  let previousCount : Int := match current with
    | some cur => cur.membersCount
    | none => 0
  if joiners.isEmpty ∧ current = none then
    .error "Wrong new block: cannot make a root block without members"
  else
    let identities := (joinData2.filter (fun kv =>
      kv.2.identity.member = false ∧ kv.2.identity.wasMember = false)).map
        (fun kv => kv.2.identity.pubkey)
    let blockJoiners := (joinData2.filter (fun kv =>
      kv.2.identity.member = false)).map (fun kv => kv.2.msInline)
    let blockActives := (joinData2.filter (fun kv =>
      kv.2.identity.member = true)).map (fun kv => kv.2.msInline)
    let blockLeavers := (leaveData1.filter (fun kv =>
      kv.2.identity.member = true)).map (fun kv => kv.2.msInline)
    let membersCount : Int := previousCount + blockJoiners.length - exclusions.length
    let certifications := (joinData2.flatMap (fun kv => kv.2.certs)) ++
      (updates2.flatMap (fun kv => kv.2))
    let powMin := if number = 0 then 0 else powMinOracle
    let medianTime := if number = 0 then nowTime - conf.rootoffset else medianTimeOracle
    .ok {
      version := 1
      currency := match current with
        | some cur => cur.currency
        | none => conf.currency
      number := number
      previousHash := match current with
        | some cur => cur.hash
        | none => ""
      previousIssuer := match current with
        | some cur => cur.issuer
        | none => ""
      issuer := selfPubkey
      identities := identities
      joiners := blockJoiners
      actives := blockActives
      leavers := blockLeavers
      excluded := exclusions
      membersCount := membersCount
      certifications := certifications
      transactions := transactions
      powMin := powMin
      medianTime := medianTime
      dividend := computeDividend conf current lastUDBlock rootBlock medianTime membersCount
    }

/-- C7: when a parent (`current`) exists, the assembled block's
`membersCount` equals the parent's count plus the number of selected
joiners that are not already members, minus the number of excluded pubkeys;
the block's `joiners` are exactly the inline memberships of the non-member
entries of the (post-deletion) `joinData`, its `excluded` is the exclusion
list, and neither `leavers` nor `actives` enter the count. -/
theorem spec_c7 (conf : Conf) (selfPubkey : String) (nowTime : Int)
    (powMinOracle : Nat) (medianTimeOracle : Int) (cur : CurrentBlock)
    (joinData leaveData : List (String × JoinEntry))
    (updates : List (String × List Cert)) (exclusions : List String)
    (lastUDBlock rootBlock : Option UDBlock) (transactions : List String)
    (b : Blk)
    (hb : createBlock conf selfPubkey nowTime powMinOracle medianTimeOracle
      (some cur) joinData leaveData updates exclusions lastUDBlock rootBlock
      transactions = .ok b) :
    b.membersCount = cur.membersCount + (b.joiners.length : Int) -
      (b.excluded.length : Int) ∧
    b.joiners.length = ((deleteKeys (deleteKeys joinData exclusions)
      ((deleteKeys leaveData exclusions).map Prod.fst)).filter
        (fun kv => kv.2.identity.member = false)).length ∧
    b.excluded = exclusions := by
  unfold createBlock at hb
  simp only [reduceCtorEq, and_false, if_false] at hb
  rcases Except.ok.inj hb with rfl
  refine ⟨?_, ?_, rfl⟩
  · simp [List.length_map]
  · simp [List.length_map]

/-- Witness for C7: a parent with 5 members, one non-member joiner, one
already-member (active) entry and one exclusion: `membersCount = 5 + 1 - 1`. -/
theorem spec_c7_witness :
    ∃ b : Blk, createBlock ⟨1/10, 100, 10, 0, "meta"⟩ "self" 1000 3 2000
      (some ⟨4, "H4", "I4", "meta", 5, some 500⟩)
      [("J1", ⟨⟨"J1", "u1", false, false⟩, "ms1", []⟩),
       ("A1", ⟨⟨"A1", "u2", true, true⟩, "ms2", []⟩)]
      [] [] ["K1"] none none [] = .ok b ∧
      b.membersCount = 5 + (b.joiners.length : Int) - (b.excluded.length : Int) ∧
      b.joiners.length = 1 ∧ b.excluded = ["K1"] := by
  refine ⟨_, rfl, ?_⟩
  have h := spec_c7 ⟨1/10, 100, 10, 0, "meta"⟩ "self" 1000 3 2000
    ⟨4, "H4", "I4", "meta", 5, some 500⟩
    [("J1", ⟨⟨"J1", "u1", false, false⟩, "ms1", []⟩),
     ("A1", ⟨⟨"A1", "u2", true, true⟩, "ms2", []⟩)]
    [] [] ["K1"] none none [] _ rfl
  refine ⟨h.1, ?_, h.2.2⟩
  rw [h.2.1]
  rfl

/-- C10: with no current block and an empty selected-joiner set, block
generation fails with `'Wrong new block: cannot make a root block without
members'` and produces no block. -/
theorem spec_c10 (conf : Conf) (selfPubkey : String) (nowTime : Int)
    (powMinOracle : Nat) (medianTimeOracle : Int)
    (leaveData : List (String × JoinEntry))
    (updates : List (String × List Cert)) (exclusions : List String)
    (lastUDBlock rootBlock : Option UDBlock) (transactions : List String)
    (current : Option CurrentBlock) (hcur : current = none) :
    createBlock conf selfPubkey nowTime powMinOracle medianTimeOracle
      current [] leaveData updates exclusions lastUDBlock rootBlock
      transactions =
      .error "Wrong new block: cannot make a root block without members" := by
  subst hcur
  rfl

/-- Witness for C10 at fully concrete inputs. -/
theorem spec_c10_witness :
    createBlock ⟨1/10, 100, 10, 0, "meta"⟩ "self" 1000 3 2000
      none [] [] [] [] none none [] =
      .error "Wrong new block: cannot make a root block without members" :=
  spec_c10 ⟨1/10, 100, 10, 0, "meta"⟩ "self" 1000 3 2000 [] [] [] none none
    [] none rfl

/-- C6: when a parent exists and a last-UD time `t` resolves, the assembled
block carries a dividend iff `t + dt ≤ block.medianTime`, and its value is
`⌈max(previousUD, c · M / N)⌉` with `M` the parent's monetary mass, `N` the
block's `membersCount` and `previousUD` the last UD block's dividend
(`ud0` when there is none).  (`0 < N` excludes the degenerate division.) -/
theorem spec_c6 (conf : Conf) (selfPubkey : String) (nowTime : Int)
    (powMinOracle : Nat) (medianTimeOracle : Int) (cur : CurrentBlock)
    (joinData leaveData : List (String × JoinEntry))
    (updates : List (String × List Cert)) (exclusions : List String)
    (lastUDBlock rootBlock : Option UDBlock) (transactions : List String)
    (b : Blk) (t : Int)
    (hb : createBlock conf selfPubkey nowTime powMinOracle medianTimeOracle
      (some cur) joinData leaveData updates exclusions lastUDBlock rootBlock
      transactions = .ok b)
    (ht : resolveLastUDTime lastUDBlock rootBlock = some t)
    (hN : 0 < b.membersCount) :
    (b.dividend.isSome ↔ t + conf.dt ≤ b.medianTime) ∧
    (t + conf.dt ≤ b.medianTime →
      b.dividend = some ⌈max ((lastUDBlock.map UDBlock.dividend).getD conf.ud0)
        (conf.c * ((cur.monetaryMass.getD 0 : Nat) : ℚ) / (b.membersCount : ℚ))⌉) := by
  clear hN
  have hdiv : b.dividend = computeDividend conf (some cur) lastUDBlock rootBlock
      b.medianTime b.membersCount := by
    unfold createBlock at hb
    simp only [reduceCtorEq, and_false, if_false] at hb
    rcases Except.ok.inj hb with rfl
    rfl
  rw [hdiv]
  unfold computeDividend
  rw [ht]
  dsimp only
  by_cases hle : t + conf.dt ≤ b.medianTime
  · rw [if_pos hle]
    exact ⟨⟨fun _ => hle, fun _ => rfl⟩, fun _ => rfl⟩
  · rw [if_neg hle]
    refine ⟨⟨fun h' => ?_, fun h' => absurd h' hle⟩, fun h' => absurd h' hle⟩
    simp at h'

/-- Witness for C6: parent mass `M = 500`, `c = 1/10`, a block ending with
two members, previous UD `7`, resolved UD time `200`: the hypotheses hold
concretely and the dividend is present (`200 + 100 ≤ 2000`). -/
theorem spec_c6_witness :
    ∃ b : Blk, createBlock ⟨1/10, 100, 10, 0, "meta"⟩ "self" 1000 3 2000
      (some ⟨4, "H4", "I4", "meta", 1, some 500⟩)
      [("J1", ⟨⟨"J1", "u1", false, false⟩, "ms1", []⟩)]
      [] [] [] (some ⟨some 200, 7⟩) none [] = .ok b ∧
      0 < b.membersCount ∧
      (b.dividend.isSome ↔ (200 : Int) + 100 ≤ b.medianTime) ∧
      b.dividend.isSome := by
  refine ⟨_, rfl, by decide, ?_, ?_⟩
  · exact (spec_c6 ⟨1/10, 100, 10, 0, "meta"⟩ "self" 1000 3 2000
      ⟨4, "H4", "I4", "meta", 1, some 500⟩
      [("J1", ⟨⟨"J1", "u1", false, false⟩, "ms1", []⟩)]
      [] [] [] (some ⟨some 200, 7⟩) none [] _ 200 rfl rfl (by decide)).1
  · exact (spec_c6 ⟨1/10, 100, 10, 0, "meta"⟩ "self" 1000 3 2000
      ⟨4, "H4", "I4", "meta", 1, some 500⟩
      [("J1", ⟨⟨"J1", "u1", false, false⟩, "ms1", []⟩)]
      [] [] [] (some ⟨some 200, 7⟩) none [] _ 200 rfl rfl (by decide)).1.mpr
      (by decide)

/-! ### Pruning the fork window (C2, C3) -/

/-- Lines 259-261:
`distanceFromMain = current && highest.forkPointNumber - current.number`,
`distanceFromVoid = highest.forkPointNumber + 1`,
`branchSize = distanceFromMain || distanceFromVoid`.
JS `&&`/`||` short-circuit on falsy values: a missing `current` *or a zero
difference* both fall back to `distanceFromVoid`. -/
def branchSize (highest : Core) (current : Option MainBlock) : Int :=
  match current with
  | none => (highest.forkPointNumber : Int) + 1
  | some cur =>
    if (highest.forkPointNumber : Int) - cur.number = 0 then
      (highest.forkPointNumber : Int) + 1
    else (highest.forkPointNumber : Int) - cur.number

/-- The walk of lines 268-274: from the highest core, follow
`_.findWhere(cores, { forkPointNumber - 1, forkPointPreviousHash })` for the
given number of steps, collecting the branch highest-first.  `none` models
the crash an `undefined` lookup would cause in the source. -/
def collectBranch (cores : List Core) : Core → Nat → Option (List Core)
  | top, 0 => some [top]
  | top, steps + 1 =>
    match getCore cores ((top.forkPointNumber : Int) - 1) top.forkPointPreviousHash with
    | none => none
    | some parent => (collectBranch cores parent steps).map (fun br => top :: br)

/-- The comparison used by `_.sortBy(branch, core => core.forkPointNumber)`
(line 275). -/
def numberLe (a b : Core) : Prop := a.forkPointNumber ≤ b.forkPointNumber

instance : DecidableRel numberLe := fun a b =>
  inferInstanceAs (Decidable (a.forkPointNumber ≤ b.forkPointNumber))

instance : IsTotal Core numberLe := ⟨fun a b => Nat.le_total _ _⟩

instance : IsTrans Core numberLe := ⟨fun _ _ _ => Nat.le_trans⟩

/-- Line 368: the orphans of a deleted core — cores claiming a parent at the
deleted core's position (`forkPointNumber == deleted.forkPointNumber + 1`)
whose link does not match it
(`forkPointPreviousHash != deleted.forkPointHash`). -/
def pruneForksOrphans (deleted : Core) (cores : List Core) : List Core :=
  cores.filter (fun core => core.forkPointNumber == deleted.forkPointNumber + 1 &&
    core.forkPointPreviousHash != deleted.forkPointHash)

/-- One iteration of the promotion loop of `startPruning` (lines 278-356)
on the state `(confirmed chain, cores)`:
`mainContext.addBlock(core.current())` appends the core's block to the
confirmed chain; `mainDAL.unfork(core)` plus
`cores.splice(cores.indexOf(core), 1)` remove the first occurrence of the
core; the pending-pool transfers and `bindUnboundsToMainDAL` touch only DAL
overlays.  The subsequent `pruneForks(deleted, cores)` call (lines 367-373)
computes `pruneForksOrphans` and recurses, but only ever rebinds its *local*
`cores` variable (`cores = _.without(cores, orphan)` allocates a fresh
array, nothing is written back and no orphan is unforked), so the caller's
`cores` is left as it stands after the `splice`. -/
def promoteOne (st : List Core × List Core) (core : Core) : List Core × List Core :=
  (st.1 ++ [core], st.2.erase core)

/-- `startPruning` (lines 258-357): compute the branch size and
`toPruneCount = max(0, branchSize - forkWindowSize)`; when zero, return
unchanged; otherwise walk `branchSize - 1` steps down from `highest`, sort
the branch ascending by height, and promote its lowest `toPruneCount` cores
in order.  Returns the confirmed chain and the cores after the call. -/
def startPruning (highest : Core) (cores : List Core) (current : Option MainBlock)
    (forkWindowSize : Nat) (chain : List Core) : Option (List Core × List Core) :=
  let bs := branchSize highest current
  let toPruneCount := (bs - forkWindowSize).toNat
  if toPruneCount = 0 then some (chain, cores)
  else
    match collectBranch cores highest (bs - 1).toNat with
    | none => none
    | some branch =>
      let sorted := List.insertionSort numberLe branch
      some ((sorted.take toPruneCount).foldl promoteOne (chain, cores))

theorem collectBranch_length (cores : List Core) :
    ∀ (n : Nat) (top : Core) (branch : List Core),
      collectBranch cores top n = some branch → branch.length = n + 1 := by
  intro n
  induction n with
  | zero =>
    intro top branch h
    rcases Option.some.inj h with rfl
    rfl
  | succ n ih =>
    intro top branch h
    rw [collectBranch] at h
    rcases hfind : getCore cores ((top.forkPointNumber : Int) - 1)
        top.forkPointPreviousHash with _ | parent
    · rw [hfind] at h
      exact Option.noConfusion h
    · rw [hfind] at h
      have h' : (collectBranch cores parent n).map (fun br => top :: br) = some branch := h
      rcases Option.map_eq_some'.mp h' with ⟨br, hrec, hbr⟩
      subst hbr
      have := ih parent br hrec
      simp [this]

theorem foldl_promoteOne_fst :
    ∀ (l : List Core) (chain cores : List Core),
      (l.foldl promoteOne (chain, cores)).1 = chain ++ l := by
  intro l
  induction l with
  | nil => intro chain cores; simp
  | cons c t ih =>
    intro chain cores
    rw [List.foldl_cons]
    show (t.foldl promoteOne (chain ++ [c], cores.erase c)).1 = _
    rw [ih (chain ++ [c]) (cores.erase c), List.append_assoc]
    rfl

theorem startPruning_eq (highest : Core) (cores : List Core)
    (current : Option MainBlock) (forkWindowSize : Nat) (chain : List Core) :
    startPruning highest cores current forkWindowSize chain =
      if (branchSize highest current - forkWindowSize).toNat = 0 then
        some (chain, cores)
      else
        match collectBranch cores highest ((branchSize highest current - 1).toNat) with
        | none => none
        | some branch =>
          some (List.foldl promoteOne (chain, cores)
            (List.take (branchSize highest current - forkWindowSize).toNat
              (List.insertionSort numberLe branch))) := rfl

theorem startPruning_eq_some (highest : Core) (cores : List Core)
    (current : Option MainBlock) (forkWindowSize : Nat) (chain : List Core)
    (branch : List Core)
    (hwalk : collectBranch cores highest
      ((branchSize highest current - 1).toNat) = some branch)
    (htp : (branchSize highest current - forkWindowSize).toNat ≠ 0) :
    startPruning highest cores current forkWindowSize chain =
      some (List.foldl promoteOne (chain, cores)
        (List.take (branchSize highest current - forkWindowSize).toNat
          (List.insertionSort numberLe branch))) := by
  rw [startPruning_eq, if_neg htp, hwalk]

/-- C2: with a confirmed tip strictly below the highest leaf (as after any
admission), the branch size is `forkPointNumber − current.number` (and
`forkPointNumber + 1` with no tip); pruning promotes cores into the
confirmed chain iff the branch size strictly exceeds the window, and then
it promotes exactly the `branchSize − W` lowest cores of the branch, in
ascending height order. -/
theorem spec_c2 (highest : Core) (cur : MainBlock) (cores chain : List Core)
    (forkWindowSize : Nat) (branch : List Core)
    (hlt : (cur.number : Int) < (highest.forkPointNumber : Int))
    (hwalk : collectBranch cores highest
      ((branchSize highest (some cur) - 1).toNat) = some branch) :
    branchSize highest (some cur) = (highest.forkPointNumber : Int) - cur.number ∧
    (∀ leaf : Core, branchSize leaf none = (leaf.forkPointNumber : Int) + 1) ∧
    (branchSize highest (some cur) ≤ forkWindowSize →
      startPruning highest cores (some cur) forkWindowSize chain = some (chain, cores)) ∧
    ((forkWindowSize : Int) < branchSize highest (some cur) →
      ∃ promoted rest cores2,
        startPruning highest cores (some cur) forkWindowSize chain =
          some (chain ++ promoted, cores2) ∧
        promoted ≠ [] ∧
        promoted.length = (branchSize highest (some cur) - forkWindowSize).toNat ∧
        (promoted ++ rest).Perm branch ∧
        promoted.Sorted numberLe ∧
        (∀ p ∈ promoted, ∀ q ∈ rest, p.forkPointNumber ≤ q.forkPointNumber)) := by
  have hbs : branchSize highest (some cur) =
      (highest.forkPointNumber : Int) - cur.number := by
    have heq : branchSize highest (some cur) =
        if (highest.forkPointNumber : Int) - cur.number = 0 then
          (highest.forkPointNumber : Int) + 1
        else (highest.forkPointNumber : Int) - cur.number := rfl
    rw [heq, if_neg (by omega)]
  refine ⟨hbs, fun leaf => rfl, ?_, ?_⟩
  · intro hle
    rw [startPruning_eq, if_pos (by omega)]
  · intro hgt
    have htp : (branchSize highest (some cur) - forkWindowSize).toNat ≠ 0 := by omega
    have hblen : branch.length = (branchSize highest (some cur) - 1).toNat + 1 :=
      collectBranch_length cores _ highest branch hwalk
    have hslen : (List.insertionSort numberLe branch).length = branch.length :=
      (List.perm_insertionSort numberLe branch).length_eq
    have htple : (branchSize highest (some cur) - forkWindowSize).toNat ≤
        (List.insertionSort numberLe branch).length := by
      rw [hslen, hblen]
      omega
    have hfst := foldl_promoteOne_fst
      ((List.insertionSort numberLe branch).take
        ((branchSize highest (some cur) - forkWindowSize).toNat)) chain cores
    refine ⟨(List.insertionSort numberLe branch).take
        ((branchSize highest (some cur) - forkWindowSize).toNat),
      (List.insertionSort numberLe branch).drop
        ((branchSize highest (some cur) - forkWindowSize).toNat),
      (List.foldl promoteOne (chain, cores)
        ((List.insertionSort numberLe branch).take
          ((branchSize highest (some cur) - forkWindowSize).toNat))).2,
      ?_, ?_, ?_, ?_, ?_, ?_⟩
    · rw [startPruning_eq_some highest cores (some cur) forkWindowSize chain branch
        hwalk htp, ← hfst]
    · intro hemp
      rcases List.take_eq_nil_iff.mp hemp with h1 | h1
      · exact htp h1
      · rw [h1] at hslen
        simp only [List.length_nil] at hslen
        omega
    · rw [List.length_take, min_eq_left htple]
    · rw [List.take_append_drop]
      exact List.perm_insertionSort numberLe branch
    · exact List.Pairwise.sublist
        (List.take_sublist _ (List.insertionSort numberLe branch))
        (List.sorted_insertionSort numberLe branch)
    · intro p hp q hq
      have happ : ((List.insertionSort numberLe branch).take
          ((branchSize highest (some cur) - forkWindowSize).toNat) ++
          (List.insertionSort numberLe branch).drop
            ((branchSize highest (some cur) - forkWindowSize).toNat)).Pairwise numberLe := by
        rw [List.take_append_drop]
        exact List.sorted_insertionSort numberLe branch
      exact (List.pairwise_append.mp happ).2.2 p hp q hq

/-- Witness for C2: the spec's windowed scenario with tip at height 11,
window 3 reduced to `W = 1`, linear branch 12-13-14: the branch size is 3
and the two lowest cores are promoted. -/
theorem spec_c2_witness :
    branchSize ⟨14, "DD", "BB"⟩ (some ⟨11, "TT"⟩) = (14 : Int) - 11 ∧
    (∀ leaf : Core, branchSize leaf none = (leaf.forkPointNumber : Int) + 1) ∧
    (branchSize ⟨14, "DD", "BB"⟩ (some ⟨11, "TT"⟩) ≤ 1 →
      startPruning ⟨14, "DD", "BB"⟩
        [⟨12, "AA", "TT"⟩, ⟨13, "BB", "AA"⟩, ⟨14, "DD", "BB"⟩]
        (some ⟨11, "TT"⟩) 1 [] =
        some ([], [⟨12, "AA", "TT"⟩, ⟨13, "BB", "AA"⟩, ⟨14, "DD", "BB"⟩])) ∧
    (((1 : Nat) : Int) < branchSize ⟨14, "DD", "BB"⟩ (some ⟨11, "TT"⟩) →
      ∃ promoted rest cores2,
        startPruning ⟨14, "DD", "BB"⟩
          [⟨12, "AA", "TT"⟩, ⟨13, "BB", "AA"⟩, ⟨14, "DD", "BB"⟩]
          (some ⟨11, "TT"⟩) 1 [] =
          some ([] ++ promoted, cores2) ∧
        promoted ≠ [] ∧
        promoted.length = (branchSize ⟨14, "DD", "BB"⟩ (some ⟨11, "TT"⟩) - 1).toNat ∧
        (promoted ++ rest).Perm [⟨14, "DD", "BB"⟩, ⟨13, "BB", "AA"⟩, ⟨12, "AA", "TT"⟩] ∧
        promoted.Sorted numberLe ∧
        (∀ p ∈ promoted, ∀ q ∈ rest, p.forkPointNumber ≤ q.forkPointNumber)) :=
  spec_c2 ⟨14, "DD", "BB"⟩ ⟨11, "TT"⟩
    [⟨12, "AA", "TT"⟩, ⟨13, "BB", "AA"⟩, ⟨14, "DD", "BB"⟩] [] 1
    [⟨14, "DD", "BB"⟩, ⟨13, "BB", "AA"⟩, ⟨12, "AA", "TT"⟩]
    (by decide) (by decide)

/-- C3 (code bug): promoting the core `(12, "AA")` leaves the orphan
`(13, "CC", "QQ")` — a core whose parent key matches the promoted core's
position but whose link does not match its hash, identified as such by the
source's own orphan filter (first conjunct) — inside the managed cores
(second conjunct): `pruneForks` only rebinds a local variable
(`cores = _.without(cores, orphan)` allocates a fresh array) and never
splices the shared array nor unforks the orphan, contradicting its own
comment "Select all forks based on deleted core / Delete these forks". -/
theorem spec_c3_bug :
    pruneForksOrphans ⟨12, "AA", "TT"⟩
      [⟨13, "BB", "AA"⟩, ⟨14, "DD", "BB"⟩, ⟨13, "CC", "QQ"⟩] = [⟨13, "CC", "QQ"⟩] ∧
    startPruning ⟨14, "DD", "BB"⟩
      [⟨12, "AA", "TT"⟩, ⟨13, "BB", "AA"⟩, ⟨14, "DD", "BB"⟩, ⟨13, "CC", "QQ"⟩]
      (some ⟨11, "TT"⟩) 1 [] =
      some ([⟨12, "AA", "TT"⟩, ⟨13, "BB", "AA"⟩],
        [⟨14, "DD", "BB"⟩, ⟨13, "CC", "QQ"⟩]) ∧
    Core.mk 13 "CC" "QQ" ∈ [Core.mk 14 "DD" "BB", Core.mk 13 "CC" "QQ"] := by
  refine ⟨by decide, by decide, by decide⟩

/-! ### PoW coordination: the worker message handler (C8) -/

/-- The coordinator state visible to the worker's `'message'` handler
(lines 1251-1307): the closure flags `stopped` and `speedMesured`, the nonce
embedded in the in-flight block (`block.nonce`, initially 0 and bumped on
memory recycling), the pending cancel tokens (`cancels[]`, tokens are
numbered so their confirmation order is observable), whether the worker
process is alive, the resolution of the in-flight `prove` promise
(`none` = still pending, `some none` = resolved with `null`,
`some (some b)` = resolved with a found block), and the cancel
confirmations invoked so far. -/
structure PowState where
  stopped : Bool
  speedMesured : Bool
  blockNonce : Nat
  cancels : List Nat
  workerAlive : Bool
  resolution : Option (Option Nat)
  confirmed : List Nat
deriving DecidableEq, Repr

/-- A message from the PoW worker process (§6 wire format): calibration
(`{ testsPerRound, testsPerSecond }`), success (`{ found: true, ... }`), or
a progress report (`{ nonce, block }`). -/
inductive PowMsg where
  | calibration : PowMsg
  | found (blockId : Nat) : PowMsg
  | progress (nonce : Nat) : PowMsg
deriving DecidableEq, Repr

/-- The `powProcess.on('message')` handler (lines 1260-1307), with
`relMem = constants.PROOF_OF_WORK.RELEASE_MEMORY`.  In source order:
a message always clears `stopped` first (line 1262-1266, so the later
`!stopped` guards always pass within the same invocation); a `found`
message stops and resolves `prove` with the block; a calibration message
sets `speedMesured`; a progress report with
`msg.nonce > block.nonce + RELEASE_MEMORY` kills and respawns the worker
with `block.nonce = msg.nonce` and `speedMesured = false` (memory
recycling, lines 1278-1288); any other progress report, when
`speedMesured && cancels.length`, kills the worker, resolves `prove` with
`null` (`onPoWFound()` with no argument), and shifts exactly one cancel
token, invoking its confirmation (lines 1289-1305). -/
def onMessage (relMem : Nat) (s : PowState) (m : PowMsg) : PowState :=
  let s := { s with stopped := false }
  match m with
  | .found blockId => { s with stopped := true, resolution := some (some blockId) }
  | .calibration => { s with speedMesured := true }
  | .progress nonce =>
    if s.blockNonce + relMem < nonce then
      { s with blockNonce := nonce, speedMesured := false }
    else if s.speedMesured then
      match s.cancels with
      | [] => s
      | tok :: rest =>
        { s with speedMesured := false, stopped := true, workerAlive := false,
                 resolution := some none, cancels := rest,
                 confirmed := s.confirmed ++ [tok] }
    else s

/-- C8, counterexample to the claim as stated: calibration is done
(`speedMesured = true`) and a cancel token (`7`) is pending, yet the next
progress message — one whose nonce `101` exceeds
`block.nonce + RELEASE_MEMORY = 0 + 100` — takes the memory-recycling
branch: the worker is respawned, `prove` is *not* resolved and the cancel
token is *not* popped (it is deferred until after re-calibration). -/
theorem spec_c8_counterexample :
    onMessage 100 ⟨false, true, 0, [7], true, none, []⟩ (.progress 101) =
      ⟨false, false, 101, [7], true, none, []⟩ ∧
    (onMessage 100 ⟨false, true, 0, [7], true, none, []⟩ (.progress 101)).cancels = [7] ∧
    (onMessage 100 ⟨false, true, 0, [7], true, none, []⟩ (.progress 101)).resolution =
      none := by
  refine ⟨by decide, by decide, by decide⟩

/-- C8, amended: when a cancel token is pending and the initial speed
calibration has completed, the next progress message *whose nonce does not
exceed the memory-recycling threshold* (`nonce ≤ block.nonce +
RELEASE_MEMORY`; otherwise the worker is first recycled and the
cancellation waits for re-calibration) makes the coordinator kill the
worker, resolve the in-flight `prove` with `null`, and pop exactly one
cancel token while invoking its confirmation callback. -/
theorem spec_c8 (relMem : Nat) (s : PowState) (nonce tok : Nat) (rest : List Nat)
    (hspeed : s.speedMesured = true) (hcancels : s.cancels = tok :: rest)
    (hnonce : nonce ≤ s.blockNonce + relMem) :
    (onMessage relMem s (.progress nonce)).workerAlive = false ∧
    (onMessage relMem s (.progress nonce)).resolution = some none ∧
    (onMessage relMem s (.progress nonce)).cancels = rest ∧
    (onMessage relMem s (.progress nonce)).confirmed = s.confirmed ++ [tok] ∧
    (onMessage relMem s (.progress nonce)).stopped = true := by
  have heq : onMessage relMem s (.progress nonce) =
      (if s.blockNonce + relMem < nonce then
        { s with stopped := false, blockNonce := nonce, speedMesured := false }
      else if s.speedMesured then
        match s.cancels with
        | [] => { s with stopped := false }
        | tok :: rest =>
          { s with stopped := true, speedMesured := false, workerAlive := false,
                   resolution := some none, cancels := rest,
                   confirmed := s.confirmed ++ [tok] }
      else { s with stopped := false } : PowState) := rfl
  rw [heq, if_neg (by omega), if_pos hspeed, hcancels]
  exact ⟨rfl, rfl, rfl, rfl, rfl⟩

/-- Witness for C8 (amended): a concrete post-calibration state with one
pending cancel token and an in-range progress nonce. -/
theorem spec_c8_witness :
    (onMessage 100 ⟨false, true, 0, [7], true, none, []⟩ (.progress 50)).workerAlive
      = false ∧
    (onMessage 100 ⟨false, true, 0, [7], true, none, []⟩ (.progress 50)).resolution
      = some none ∧
    (onMessage 100 ⟨false, true, 0, [7], true, none, []⟩ (.progress 50)).cancels = [] ∧
    (onMessage 100 ⟨false, true, 0, [7], true, none, []⟩ (.progress 50)).confirmed
      = [] ++ [7] ∧
    (onMessage 100 ⟨false, true, 0, [7], true, none, []⟩ (.progress 50)).stopped
      = true :=
  spec_c8 100 ⟨false, true, 0, [7], true, none, []⟩ 50 7 [] rfl rfl (by decide)

end Duniter
